import Mathlib

/-!
Verification of the stract distributed-search core against its specification.

The definitions below shallowly embed the relevant Rust source files:
  * crates/core/src/webgraph/query/collector/top_docs.rs
  * crates/core/src/live_index/index.rs
  * crates/core/src/searcher/distributed.rs
Machine integers are modelled as `Nat` (ranks, hosts, ids and timestamps are
plain values; no arithmetic overflow is relevant to the claims).
-/

namespace Stract

/-! ### Generic list helpers used by the embedded code

`uniqueBy` models `itertools::unique_by`, which keeps the FIRST occurrence of
every key in iteration order.  `sortOn` models the stable Rust `sort_by` when
comparing by a single key.  `chunksOf` models `itertools::chunks`.
-/

/-- Auxiliary worker for `uniqueBy`: `seen` is the set of keys already emitted. -/
def uniqueByAux (key : α → Nat) (seen : List Nat) : List α → List α
  | [] => []
  | x :: xs =>
    if key x ∈ seen then uniqueByAux key seen xs
    else x :: uniqueByAux key (key x :: seen) xs

/-- Models `itertools::unique_by`: keep the first occurrence of every key. -/
def uniqueBy (key : α → Nat) (l : List α) : List α :=
  uniqueByAux key [] l

theorem uniqueByAux_sublist (key : α → Nat) (seen : List Nat) (l : List α) :
    (uniqueByAux key seen l).Sublist l := by
  induction l generalizing seen with
  | nil => simp [uniqueByAux]
  | cons x xs ih =>
    simp only [uniqueByAux]
    split
    · exact (ih seen).cons x
    · exact (ih _).cons₂ x

theorem key_not_mem_of_mem_uniqueByAux (key : α → Nat) (seen : List Nat) (l : List α)
    (x : α) (hx : x ∈ uniqueByAux key seen l) : key x ∉ seen := by
  induction l generalizing seen with
  | nil => simp [uniqueByAux] at hx
  | cons y ys ih =>
    simp only [uniqueByAux] at hx
    split at hx
    · exact ih seen hx
    · rcases List.mem_cons.mp hx with rfl | hx
      · assumption
      · intro hc
        exact ih _ hx (List.mem_cons_of_mem _ hc)

theorem nodup_map_key_uniqueByAux (key : α → Nat) (seen : List Nat) (l : List α) :
    ((uniqueByAux key seen l).map key).Nodup := by
  induction l generalizing seen with
  | nil => simp [uniqueByAux]
  | cons x xs ih =>
    simp only [uniqueByAux]
    split
    · exact ih seen
    · simp only [List.map_cons, List.nodup_cons]
      refine ⟨?_, ih _⟩
      intro hmem
      rcases List.mem_map.mp hmem with ⟨y, hy, hky⟩
      exact key_not_mem_of_mem_uniqueByAux key _ xs y hy (by simp [hky])

theorem nodup_map_key_uniqueBy (key : α → Nat) (l : List α) :
    ((uniqueBy key l).map key).Nodup :=
  nodup_map_key_uniqueByAux key [] l

theorem uniqueBy_sublist (key : α → Nat) (l : List α) :
    (uniqueBy key l).Sublist l :=
  uniqueByAux_sublist key [] l

theorem uniqueByAux_covers (key : α → Nat) (seen : List Nat) (l : List α)
    (p : α) (hp : p ∈ l) (hs : key p ∉ seen) :
    ∃ q ∈ uniqueByAux key seen l, key q = key p := by
  induction l generalizing seen with
  | nil => simp at hp
  | cons y ys ih =>
    simp only [uniqueByAux]
    split
    · rcases List.mem_cons.mp hp with rfl | hp
      · exact absurd (by assumption) hs
      · exact ih seen hp hs
    · rcases List.mem_cons.mp hp with rfl | hp
      · exact ⟨p, List.mem_cons_self _ _, rfl⟩
      · by_cases hk : key p = key y
        · exact ⟨y, List.mem_cons_self _ _, hk.symm⟩
        · obtain ⟨q, hq, hqk⟩ := ih (key y :: seen) hp (by
            simp only [List.mem_cons]
            rintro (h | h)
            · exact hk h
            · exact hs h)
          exact ⟨q, List.mem_cons_of_mem _ hq, hqk⟩

theorem uniqueBy_covers (key : α → Nat) (l : List α) (p : α) (hp : p ∈ l) :
    ∃ q ∈ uniqueBy key l, key q = key p :=
  uniqueByAux_covers key [] l p hp (by simp)

theorem find?_of_mem_uniqueByAux (key : α → Nat) (seen : List Nat) (l : List α)
    (q : α) (hq : q ∈ uniqueByAux key seen l) :
    l.find? (fun x => key x == key q) = some q := by
  induction l generalizing seen with
  | nil => simp [uniqueByAux] at hq
  | cons y ys ih =>
    simp only [uniqueByAux] at hq
    split at hq
    · have hqs : key q ∉ seen := key_not_mem_of_mem_uniqueByAux key seen ys q hq
      have hne : (key y == key q) = false := by
        simp only [beq_eq_false_iff_ne, ne_eq]
        intro h
        exact hqs (h ▸ (by assumption))
      simp only [List.find?, hne]
      exact ih seen hq
    · rcases List.mem_cons.mp hq with rfl | hq
      · simp [List.find?]
      · have hqs : key q ∉ (key y :: seen) :=
          key_not_mem_of_mem_uniqueByAux key _ ys q hq
        have hne : (key y == key q) = false := by
          simp only [beq_eq_false_iff_ne, ne_eq]
          intro h
          exact hqs (by simp [h])
        simp only [List.find?, hne]
        exact ih _ hq

/-- The element kept by `uniqueBy` for a key is the first element of the
original list carrying that key. -/
theorem find?_of_mem_uniqueBy (key : α → Nat) (l : List α)
    (q : α) (hq : q ∈ uniqueBy key l) :
    l.find? (fun x => key x == key q) = some q :=
  find?_of_mem_uniqueByAux key [] l q hq

/-- Stable insertion used by `sortOn`: an element is placed after every
already-present element with a smaller-or-equal key. -/
def insertOn (key : α → Nat) (x : α) : List α → List α
  | [] => [x]
  | y :: ys => if key y ≤ key x then y :: insertOn key x ys else x :: y :: ys

/-- Stable sort by a `Nat` key, modelling the stable Rust `sort_by` on a single
key (and the rank-ascending harvest order of the collectors). -/
def sortOn (key : α → Nat) : List α → List α
  | [] => []
  | x :: xs => insertOn key x (sortOn key xs)

theorem insertOn_perm (key : α → Nat) (x : α) (l : List α) :
    List.Perm (insertOn key x l) (x :: l) := by
  induction l with
  | nil => exact List.Perm.refl _
  | cons y ys ih =>
    simp only [insertOn]
    split
    · exact (ih.cons y).trans (List.Perm.swap x y ys)
    · exact List.Perm.refl _

theorem sortOn_perm (key : α → Nat) (l : List α) :
    List.Perm (sortOn key l) l := by
  induction l with
  | nil => exact List.Perm.refl _
  | cons x xs ih =>
    exact (insertOn_perm key x (sortOn key xs)).trans (ih.cons x)

/-- Sortedness by key (non-strict). -/
def SortedOn (key : α → Nat) (l : List α) : Prop :=
  l.Pairwise (fun a b => key a ≤ key b)

theorem sortedOn_insertOn (key : α → Nat) (x : α) (l : List α)
    (hl : SortedOn key l) : SortedOn key (insertOn key x l) := by
  induction l with
  | nil => simp [insertOn, SortedOn]
  | cons y ys ih =>
    rcases List.pairwise_cons.mp hl with ⟨hy, hys⟩
    simp only [insertOn]
    split
    · refine List.pairwise_cons.mpr ⟨?_, ih hys⟩
      intro z hz
      have hz' := (insertOn_perm key x ys).mem_iff.mp hz
      rcases List.mem_cons.mp hz' with rfl | hz'
      · assumption
      · exact hy z hz'
    · refine List.pairwise_cons.mpr ⟨?_, hl⟩
      intro z hz
      have hxy : key x ≤ key y := Nat.le_of_not_le (by assumption)
      rcases List.mem_cons.mp hz with rfl | hz
      · exact hxy
      · exact Nat.le_trans hxy (hy z hz)

theorem sortedOn_sortOn (key : α → Nat) (l : List α) :
    SortedOn key (sortOn key l) := by
  induction l with
  | nil => simp [sortOn, SortedOn]
  | cons x xs ih => exact sortedOn_insertOn key x (sortOn key xs) ih

/-- Models `itertools::chunks n` (n > 0 in all uses): split into consecutive chunks. -/
def chunksOf (n : Nat) (l : List α) : List (List α) :=
  match l with
  | [] => []
  | x :: xs => (x :: xs.take (n - 1)) :: chunksOf n (xs.drop (n - 1))
termination_by l.length
decreasing_by
  simp only [List.length_cons, List.length_drop]
  exact Nat.lt_succ_of_le (Nat.sub_le _ _)

theorem flatten_chunksOf (n : Nat) (l : List α) : (chunksOf n l).flatten = l := by
  induction l using chunksOf.induct n with
  | case1 => simp [chunksOf]
  | case2 x xs ih =>
    simp only [chunksOf, List.flatten_cons, ih]
    simp [List.take_append_drop]

/-! ### TopDocsCollector (webgraph/query/collector/top_docs.rs) -/

/-- Constant `DEDUPLICATION_BUFFER`: buffer to ensure the remote has enough docs for
deduplication (top_docs.rs line 41). -/
def DEDUPLICATION_BUFFER : Nat := 128

/-- Constant `usize::MAX`, used by `merge_fruits` when `limit` is unset. -/
def USIZE_MAX : Nat := 2 ^ 64 - 1

/-- Structure `DocAddress`: shard id, segment ordinal, doc id. -/
structure DocAddress where
  shard : Nat
  segmentOrd : Nat
  doc : Nat
deriving DecidableEq

/-- Structure `DocAddressWithHost`: a doc address paired with its host column value. -/
structure DocAddressWithHost where
  address : DocAddress
  host : Nat
deriving DecidableEq

/-- Models `HostDeduplicator::deduplicate` (top_docs.rs lines 121-123):
`unique_by` host, keeping the first occurrence in the order of the given
vector. -/
def hostDeduplicate (docs : List (Nat × DocAddressWithHost)) :
    List (Nat × DocAddressWithHost) :=
  uniqueBy (fun d => d.2.host) docs

/-- Models `NoDeduplicator::deduplicate`: the identity. -/
def noDeduplicate (docs : List (Nat × DocAddress)) : List (Nat × DocAddress) :=
  docs

/-- The two computer variants of `TopDocsCollector` (`Computer::TopN` holding
a `TopNComputer` with the given capacity, and `Computer::All`). -/
inductive ComputerKind where
  | topN (capacity : Nat)
  | allDocs
deriving DecidableEq

/-- Models `TopDocsCollector::computer` (top_docs.rs lines 280-289): variant chosen
from the configured `offset` and `limit`. -/
def computerKind (offset limit : Option Nat) : ComputerKind :=
  match offset, limit with
  | some o, some l => .topN (l + o + DEDUPLICATION_BUFFER)
  | some _, none => .allDocs
  | none, some l => .topN (l + DEDUPLICATION_BUFFER)
  | none, none => .allDocs

/-- Semantics of pushing `(rank, doc)` candidates through a computer and
harvesting.  `AllComputer::harvest` (top_docs.rs lines 398-402) stably sorts
by rank.

Modelled from the spec: `tantivy::collector::TopNComputer` (the vendored
`crates/tantivy` collector, whose source is not included under src/) keeps
the `capacity` lowest-rank candidates, tie-breaking stably by insertion
order, and `into_sorted_vec` returns them in ascending rank order. -/
def runComputer (k : ComputerKind) (xs : List (Nat × d)) : List (Nat × d) :=
  match k with
  | .topN cap => (sortOn Prod.fst xs).take cap
  | .allDocs => sortOn Prod.fst xs

/-- The configuration of a `TopDocsCollector` relevant to merging fruits. -/
structure TopDocsCfg where
  limit : Option Nat
  offset : Option Nat
  performOffset : Bool

/-- Models `TopDocsCollector::merge_fruits` (top_docs.rs lines 325-357), generic
over the deduplicator function and doc payload: flatten the segment fruits,
deduplicate, push through a fresh computer, harvest, then either apply
`offset`/`limit` (`perform_offset`) or keep `limit + DEDUPLICATION_BUFFER`
(saturating) candidates for the coordinator. -/
def mergeFruits (cfg : TopDocsCfg) (dedup : List (Nat × d) → List (Nat × d))
    (segmentFruits : List (List (Nat × d))) : List (Nat × d) :=
  let beforeDeduplication := segmentFruits.flatten
  let deduplicated := dedup beforeDeduplication
  let result := runComputer (computerKind cfg.offset cfg.limit) deduplicated
  if cfg.performOffset then
    (result.drop (cfg.offset.getD 0)).take (cfg.limit.getD USIZE_MAX)
  else
    result.take (Nat.min ((cfg.limit.getD USIZE_MAX) + DEDUPLICATION_BUFFER) USIZE_MAX)

/-- The parent-merge behaviour asserted by the specification for
host-deduplication mode, stated in the words of the spec: deduplicate by
retaining, per host, the first occurrence in global rank order (stable,
lowest rank wins), then apply `offset`/`limit` to the deduplicated,
rank-sorted list. -/
def specMergeFruitsRankOrderDedup (cfg : TopDocsCfg)
    (segmentFruits : List (List (Nat × DocAddressWithHost))) :
    List (Nat × DocAddressWithHost) :=
  let deduplicated := uniqueBy (fun d => d.2.host) (sortOn Prod.fst segmentFruits.flatten)
  (deduplicated.drop (cfg.offset.getD 0)).take (cfg.limit.getD USIZE_MAX)

/-- The host-relevant part of `ColumnFields`: whether `with_host_field` was
called. -/
structure ColumnFieldsCfg where
  hostField : Option Nat
deriving DecidableEq

/-- The builder state of a `TopDocsCollector` relevant to `for_segment`. -/
structure CollectorCfg where
  shardId : Option Nat
  columnFields : Option ColumnFieldsCfg

/-- Per-segment environment for `for_segment`: whether the document scorer
opens successfully, and the warmed u128 columns available by field (a column
maps a doc id to its optional first value, as `Column::first` does). -/
structure SegmentEnv where
  scorerOk : Bool
  u128Columns : Nat → Option (Nat → Option Nat)

/-- Outcome of `for_segment`, distinguishing a Rust panic (`unwrap` on
`None`) from a returned error (the `?` on the scorer). -/
inductive ForSegmentResult where
  | crashed
  | errored
  | ok (hostColumn : Option (Nat → Option Nat))

/-- Models `TopDocsCollector::for_segment` (top_docs.rs lines 297-323): unwrap
`column_fields`, open the scorer with `?`, unwrap `shard_id`, then open the
host column (unwrapping the lookup) when a host field was configured. -/
def forSegment (cfg : CollectorCfg) (env : SegmentEnv) : ForSegmentResult :=
  match cfg.columnFields with
  | none => .crashed
  | some cf =>
    if env.scorerOk then
      match cfg.shardId with
      | none => .crashed
      | some _ =>
        match cf.hostField with
        | none => .ok none
        | some f =>
          match env.u128Columns f with
          | none => .crashed
          | some col => .ok (some col)
    else .errored

/-- Models `DocAddressWithHost::new` run during `collect` (top_docs.rs lines
96-113): panics (`none`) when the host column is absent or holds no value
for `doc`. -/
def docAddressWithHostNew (hostColumn : Option (Nat → Option Nat))
    (shardId segmentOrd doc : Nat) : Option DocAddressWithHost :=
  match hostColumn.bind (fun col => col doc) with
  | none => none
  | some h => some ⟨⟨shardId, segmentOrd, doc⟩, h⟩

/-! ### Live index (live_index/index.rs) -/

/-- Modelled from the spec: `BATCH_SIZE` (declared in
crates/core/src/live_index, whose module root is not included under src/) is
the commit batching constant, recommended 512. -/
def BATCH_SIZE : Nat := 512

/-- An `IndexableWebpage` reduced to the fields the claims mention: its URL
(the deduplication key) and an opaque payload distinguishing revisions. -/
structure IndexablePage where
  url : Nat
  payload : Nat
deriving DecidableEq

/-- The `InnerIndex` state relevant to the WAL/commit claims. -/
structure InnerIndexState where
  wal : List IndexablePage
  store : List IndexablePage
  hasInserts : Bool
deriving DecidableEq

/-- The documents a commit hands to the store: iterate the WAL, `unique_by`
URL, chunk into `BATCH_SIZE` groups given to the indexing worker (the worker
prepares documents elementwise, so the store receives the flattening). -/
def commitDocs (wal : List IndexablePage) : List IndexablePage :=
  (chunksOf BATCH_SIZE (uniqueBy (fun p => p.url) wal)).flatten

/-- Models `InnerIndex::new` (index.rs lines 119-143): replay the WAL;
`has_inserts` is initialised to `wal_count > 0`. -/
def newIndex (walOnDisk : List IndexablePage) (store : List IndexablePage) :
    InnerIndexState :=
  { wal := walOnDisk, store := store, hasInserts := decide (0 < walOnDisk.length) }

/-- Models `InnerIndex::insert` (index.rs lines 329-332): append the pages to the
WAL, then mark `has_inserts`. -/
def insertPages (s : InnerIndexState) (pages : List IndexablePage) :
    InnerIndexState :=
  { s with wal := s.wal ++ pages, hasInserts := true }

/-- Models `InnerIndex::commit` (index.rs lines 334-356).  `storeCommitOk`
abstracts whether the store-level commit succeeds; on failure the code
panics via `unwrap` before `wal.clear()` runs, so the error case returns the
persistent state at the panic with the WAL intact.  On success the WAL is
cleared and only then is `has_inserts` reset. -/
def commitIndex (s : InnerIndexState) (storeCommitOk : Bool) :
    Except InnerIndexState InnerIndexState :=
  let inserted : InnerIndexState := { s with store := s.store ++ commitDocs s.wal }
  match storeCommitOk with
  | true => .ok { inserted with wal := [], hasInserts := false }
  | false => .error inserted

/-- States an `InnerIndex` can reach: opened on some on-disk WAL and store,
then closed under inserts, successful commits, and restarts that replay the
persistent WAL. -/
inductive ReachableIndex : InnerIndexState → Prop where
  | opened (wal store : List IndexablePage) : ReachableIndex (newIndex wal store)
  | insert {s : InnerIndexState} (pages : List IndexablePage) :
      ReachableIndex s → ReachableIndex (insertPages s pages)
  | commit {s s' : InnerIndexState} :
      ReachableIndex s → commitIndex s true = .ok s' → ReachableIndex s'
  | restart {s : InnerIndexState} :
      ReachableIndex s → ReachableIndex (newIndex s.wal s.store)

/-- A live-index `Segment`: id and creation timestamp (seconds, UTC). -/
structure LiveSegment where
  id : Nat
  created : Nat
deriving DecidableEq

/-- Models `DateTime::date_naive`, on the seconds timestamp: the calendar day. -/
def dateNaive (created : Nat) : Nat := created / 86400

/-- Models `prepare_segments_for_compaction` (index.rs lines 226-237): group
`Meta.segments` by naive creation date.  The `HashMap` iteration order of the
groups is unspecified in Rust; groups are listed here by date of first
occurrence, and within a group meta order is preserved (as `entry().push`
does). -/
def segmentsByDate (meta : List LiveSegment) : List (List LiveSegment) :=
  ((meta.map (fun s => dateNaive s.created)).dedup).map
    (fun day => meta.filter (fun s => dateNaive s.created = day))

/-- Models `start_compact_segments_by_date` (index.rs lines 170-198): groups with
`len() <= 1` are skipped; every other date group becomes one operation. -/
def startCompactSegmentsByDate (meta : List LiveSegment) : List (List LiveSegment) :=
  (segmentsByDate meta).filter (fun g => 1 < g.length)

/-- Models `op.segments.iter().map(|s| s.created).max().unwrap()` (nonempty in every
use; `foldr max 0` agrees with `.max()` on nonempty `Nat` lists). -/
def newestCreated (g : List LiveSegment) : Nat :=
  (g.map (fun s => s.created)).foldr max 0

/-- Models `update_meta_after_compaction` (index.rs lines 239-252): retain the
segments whose id is not among the old ids, then push the new segment
stamped with the newest input creation date. -/
def updateMetaAfterCompaction (meta : List LiveSegment) (oldIds : List Nat)
    (newId : Nat) (newestCreation : Nat) : List LiveSegment :=
  (meta.filter (fun s => s.id ∉ oldIds)) ++ [⟨newId, newestCreation⟩]

/-- One iteration of the loop in `end_compact_segments_by_date` (index.rs
lines 204-218): `op.end` yields `Ok(Some(new_id))`, `Ok(None)` or `Err`;
Meta is updated only in the `Ok(Some _)` case (`if let Ok(Some(..))`), so
`endResult = none` covers both other outcomes. -/
def endCompactOne (meta : List LiveSegment) (group : List LiveSegment)
    (endResult : Option Nat) : List LiveSegment :=
  match endResult with
  | some newId =>
    updateMetaAfterCompaction meta (group.map (fun s => s.id)) newId (newestCreated group)
  | none => meta

/-- The meta evolution of `end_compact_segments_by_date` over its prepared
operations. -/
def endCompactSegmentsByDate (meta : List LiveSegment)
    (ops : List (List LiveSegment × Option Nat)) : List LiveSegment :=
  ops.foldl (fun m op => endCompactOne m op.1 op.2) meta

/-- Models `sync_meta_with_index` (index.rs lines 265-309).  The code removes the
meta segments whose id lies in `segments_in_meta \ segments_in_index`; for a
meta segment that is exactly "id not present in the store", hence the direct
filter here.  Store-only ids are appended freshly stamped `now`
(`Utc::now()`); the `HashSet` iteration order is unspecified in Rust and
modelled as store order. -/
def syncMetaWithIndex (meta : List LiveSegment) (storeIds : List Nat)
    (now : Nat) : List LiveSegment :=
  let segmentsInMeta := meta.map (fun s => s.id)
  (meta.filter (fun s => s.id ∈ storeIds)) ++
    ((storeIds.filter (fun i => i ∉ segmentsInMeta)).map
      (fun i => ⟨i, now⟩))

/-- Models `prune_segments` (index.rs lines 145-168): collect the meta segments with
`created + TTL < now`, delete them from the store, then reconcile meta with
the store.  Returns the new meta and the new store segment-id set. -/
def pruneSegments (meta : List LiveSegment) (storeIds : List Nat)
    (now ttl : Nat) : List LiveSegment × List Nat :=
  let oldSegments := meta.filterMap
    (fun s => if s.created + ttl < now then some s.id else none)
  let storeAfter := storeIds.filter (fun i => i ∉ oldSegments)
  (syncMetaWithIndex meta storeAfter now, storeAfter)

/-! ### Distributed searcher (searcher/distributed.rs) -/

/-- A `ScoredWebpagePointer` reduced to what `retrieve_webpages` uses: the
shard it originated from and its shard-local pointer payload. -/
structure ScoredPointer where
  shard : Nat
  pointer : Nat
deriving DecidableEq

/-- The grouping step of `retrieve_webpages` (distributed.rs lines 373-383):
pointers are enumerated with their input position and bucketed by
originating shard.  The `HashMap` bucket order is unspecified in Rust;
buckets are listed here by first occurrence of the shard, and within a
bucket input order is preserved (as `entry().push` does). -/
def groupPointersByShard (ps : List ScoredPointer) :
    List (Nat × List (Nat × ScoredPointer)) :=
  ((ps.map (fun p => p.shard)).dedup).map
    (fun sh => (sh, ps.enum.filter (fun ip => ip.2.shard = sh)))

/-- Models `retrieve_webpages_from_shard` (distributed.rs lines 306-337): the
pointers of a bucket are sent to shard `sh` via `SpecificShardSelector(sh)`;
`retr sh p` abstracts the page shard `sh` returns for pointer `p`; the
replies come back aligned with the request (`zip_eq`) and are re-paired with
the original input indices. -/
def retrieveFromShard (retr : Nat → ScoredPointer → w) (sh : Nat)
    (ptrs : List (Nat × ScoredPointer)) : List (Nat × w) :=
  ptrs.map (fun ip => (ip.1, retr sh ip.2))

/-- Models `retrieve_webpages` (distributed.rs lines 368-403), successful-shards
path: group by shard, query each shard, gather the indexed replies, sort by
input index, drop the indices. -/
def retrieveWebpages (retr : Nat → ScoredPointer → w) (ps : List ScoredPointer) :
    List w :=
  let groups := groupPointersByShard ps
  let retrieved := (groups.map (fun g => retrieveFromShard retr g.1 g.2)).flatten
  (sortOn Prod.fst retrieved).map Prod.snd

/-- The advertised state of a live-index member (`LiveIndexState`). -/
inductive LiveNodeState where
  | inSetup
  | ready
deriving DecidableEq

/-- Cluster membership services, reduced to the variants the client builders
route (hosts and shards as opaque numbers). -/
inductive ClusterService where
  | searcher (host shard : Nat)
  | liveIndex (host searchHost shard : Nat) (state : LiveNodeState)
  | entitySearcher (host : Nat)
  | dhtNode (host shard : Nat)
deriving DecidableEq

/-- Models `shards.entry(shard).or_insert_with(Vec::new).push(host)` on an
association table. -/
def entryPush (tbl : List (Nat × List Nat)) (shard host : Nat) :
    List (Nat × List Nat) :=
  match tbl with
  | [] => [(shard, [host])]
  | (k, v) :: rest =>
    if k = shard then (k, v ++ [host]) :: rest
    else (k, v) :: entryPush rest shard host

/-- The hosts registered for a shard in a routing table. -/
def lookupHosts (tbl : List (Nat × List Nat)) (shard : Nat) : List Nat :=
  match tbl with
  | [] => []
  | (k, v) :: rest => if k = shard then v else lookupHosts rest shard

/-- The loop body of `ReusableClientManager for SearchService::new_client`
(distributed.rs lines 209-217): a `Searcher` member always registers its
`host` under its shard; a `LiveIndex` member registers its `search_host`
only when its advertised state is `Ready`. -/
def searchServiceStep (tbl : List (Nat × List Nat)) (m : ClusterService) :
    List (Nat × List Nat) :=
  match m with
  | .searcher host shard => entryPush tbl shard host
  | .liveIndex _ searchHost shard state =>
    if state = .ready then entryPush tbl shard searchHost else tbl
  | _ => tbl

/-- Models `ReusableClientManager for SearchService::new_client` (distributed.rs
lines 207-229): fold the membership into the routing table. -/
def searchServiceRouting (members : List ClusterService) :
    List (Nat × List Nat) :=
  members.foldl searchServiceStep []

/-- The loop body of `ReusableClientManager for LiveIndexService::new_client`
(distributed.rs lines 265-271): only `Ready` `LiveIndex` members register,
under their `host`. -/
def liveIndexServiceStep (tbl : List (Nat × List Nat)) (m : ClusterService) :
    List (Nat × List Nat) :=
  match m with
  | .liveIndex host _ shard state =>
    if state = .ready then entryPush tbl shard host else tbl
  | _ => tbl

/-- Models `ReusableClientManager for LiveIndexService::new_client` (distributed.rs
lines 263-283): fold the membership into the routing table. -/
def liveIndexServiceRouting (members : List ClusterService) :
    List (Nat × List Nat) :=
  members.foldl liveIndexServiceStep []

/-! ### Helper lemmas -/

theorem commitDocs_eq (wal : List IndexablePage) :
    commitDocs wal = uniqueBy (fun p => p.url) wal := by
  simp [commitDocs, flatten_chunksOf]

theorem foldr_max_mem (l : List Nat) (hl : l ≠ []) : l.foldr max 0 ∈ l := by
  induction l with
  | nil => exact absurd rfl hl
  | cons a l ih =>
    rcases eq_or_ne l [] with rfl | hne
    · simp
    · have hmem := ih hne
      simp only [List.foldr_cons]
      rcases Nat.le_total (l.foldr max 0) a with h | h
      · rw [Nat.max_eq_left h]
        exact List.mem_cons_self _ _
      · rw [Nat.max_eq_right h]
        exact List.mem_cons_of_mem a hmem

theorem le_foldr_max (l : List Nat) (x : Nat) (hx : x ∈ l) : x ≤ l.foldr max 0 := by
  induction l with
  | nil => simp at hx
  | cons a l ih =>
    rcases List.mem_cons.mp hx with rfl | hx
    · exact Nat.le_max_left _ _
    · exact Nat.le_trans (ih hx) (Nat.le_max_right _ _)

/-! ### C2: segment-local computer selection -/

/-- Candidates with pairwise-distinct ranks, 129 of them. -/
def manyCandidates : List (Nat × Nat) := (List.range 129).map (fun i => (i, i))

/-- C2 counterexample: with `offset` unset and `limit = some 0` the computer
is a `TopN(128)` heap, not an all-retaining computer; on 129 candidates its
harvest drops one, contradicting the claim that whenever either `limit` or
`offset` is unset all candidates are retained. -/
theorem computer_truncates_when_offset_unset :
    computerKind none (some 0) = ComputerKind.topN 128 ∧
    (runComputer (computerKind none (some 0)) manyCandidates).length ≠
      manyCandidates.length := by
  refine ⟨rfl, ?_⟩
  have h1 : (sortOn Prod.fst manyCandidates).length = manyCandidates.length :=
    (sortOn_perm Prod.fst manyCandidates).length_eq
  have h2 : manyCandidates.length = 129 := by simp [manyCandidates]
  simp only [computerKind, runComputer, List.length_take, h1, h2]
  decide

/-- C2 (amended): the segment-local computer is `TopN(limit + offset + 128)`
when both `limit` and `offset` are set, `TopN(limit + 128)` when only
`limit` is set, and it retains all candidates — sorting them stably by rank
at harvest — exactly when `limit` is unset (whether or not `offset` is
set). -/
theorem computer_capacity_cases (o l : Nat) (ob : Option Nat)
    (xs : List (Nat × Nat)) :
    DEDUPLICATION_BUFFER = 128 ∧
    computerKind (some o) (some l) =
      ComputerKind.topN (l + o + DEDUPLICATION_BUFFER) ∧
    computerKind none (some l) = ComputerKind.topN (l + DEDUPLICATION_BUFFER) ∧
    computerKind ob none = ComputerKind.allDocs ∧
    List.Perm (runComputer ComputerKind.allDocs xs) xs ∧
    SortedOn Prod.fst (runComputer ComputerKind.allDocs xs) := by
  refine ⟨rfl, rfl, rfl, ?_, sortOn_perm _ xs, sortedOn_sortOn _ xs⟩
  cases ob <;> rfl

/-! ### C10: for_segment preconditions -/

/-- C10: `for_segment` demands both `column_fields` and `shard_id`: a missing
`column_fields` panics outright, and a missing `shard_id` panics as soon as
the scorer has opened — in every configuration, host field set or not, so
the precondition applies even without host deduplication; the failure is a
panic, never a returned error.  With host deduplication, a document whose
host column value is absent likewise panics during `collect`
(`DocAddressWithHost::new`). -/
theorem forSegment_requires_columnFields_and_shardId
    (cfg : CollectorCfg) (env : SegmentEnv)
    (h : cfg.columnFields = none ∨ (env.scorerOk = true ∧ cfg.shardId = none)) :
    forSegment cfg env = .crashed ∧
    (∀ (hostColumn : Option (Nat → Option Nat)) (shardId segmentOrd doc : Nat),
      hostColumn.bind (fun col => col doc) = none →
      docAddressWithHostNew hostColumn shardId segmentOrd doc = none) := by
  constructor
  · rcases h with h | ⟨hs, hid⟩
    · simp [forSegment, h]
    · cases hcf : cfg.columnFields with
      | none => simp [forSegment, hcf]
      | some cf => simp [forSegment, hcf, hs, hid]
  · intro hostColumn shardId segmentOrd doc hnone
    simp [docAddressWithHostNew, hnone]

/-- Witness for C10 at a concrete collector configuration. -/
theorem forSegment_requires_witness :
    forSegment ⟨none, some ⟨none⟩⟩ ⟨true, fun _ => none⟩ =
      ForSegmentResult.crashed ∧
    (∀ (hostColumn : Option (Nat → Option Nat)) (shardId segmentOrd doc : Nat),
      hostColumn.bind (fun col => col doc) = none →
      docAddressWithHostNew hostColumn shardId segmentOrd doc = none) :=
  forSegment_requires_columnFields_and_shardId ⟨none, some ⟨none⟩⟩
    ⟨true, fun _ => none⟩ (Or.inr ⟨rfl, rfl⟩)

/-! ### C3: commit deduplication and WAL clearing -/

/-- C3 counterexample: with the WAL holding two inserts for URL 0 (payloads
1 then 2, in insertion order), a successful commit indexes the FIRST insert,
not the most recently inserted one as the last-writer-wins semantics of the
claim demands. -/
theorem commit_not_last_writer_wins :
    commitDocs [⟨0, 1⟩, ⟨0, 2⟩] = [⟨0, 1⟩] ∧
    commitDocs [⟨0, 1⟩, ⟨0, 2⟩] ≠ [⟨0, 2⟩] ∧
    commitIndex ⟨[⟨0, 1⟩, ⟨0, 2⟩], [], true⟩ true =
      Except.ok ⟨[], [⟨0, 1⟩], false⟩ := by
  refine ⟨by simp only [commitDocs_eq]; decide, by simp only [commitDocs_eq]; decide, ?_⟩
  simp only [commitIndex, commitDocs_eq]
  rfl

/-- C3 (amended): `commit()` deduplicates the iterated WAL records by URL
with FIRST-writer-wins semantics within the batch — the earliest inserted
page for each URL is the one indexed (`unique_by` keeps first occurrences;
the indexed batch has pairwise-distinct URLs, covers every WAL URL, and each
kept record is the first WAL record with its URL) — and the WAL is cleared
exactly when the store commit succeeds: a failing store commit panics with
the WAL intact. -/
theorem commit_first_writer_wins_and_clears_wal (s : InnerIndexState) :
    commitIndex s true =
      Except.ok ⟨[], s.store ++ uniqueBy (fun p => p.url) s.wal, false⟩ ∧
    commitIndex s false =
      Except.error ⟨s.wal, s.store ++ uniqueBy (fun p => p.url) s.wal,
        s.hasInserts⟩ ∧
    ((uniqueBy (fun p => p.url) s.wal).map (fun p => p.url)).Nodup ∧
    (∀ q ∈ uniqueBy (fun p => p.url) s.wal,
      s.wal.find? (fun x => x.url == q.url) = some q) ∧
    (∀ p ∈ s.wal, ∃ q ∈ uniqueBy (fun p => p.url) s.wal, q.url = p.url) := by
  refine ⟨?_, ?_, nodup_map_key_uniqueBy _ s.wal, ?_, ?_⟩
  · simp [commitIndex, commitDocs_eq]
  · simp [commitIndex, commitDocs_eq]
  · intro q hq
    exact find?_of_mem_uniqueBy (fun p => p.url) s.wal q hq
  · intro p hp
    obtain ⟨q, hq, hqk⟩ := uniqueBy_covers (fun p => p.url) s.wal p hp
    exact ⟨q, hq, hqk⟩

/-- Witness for the amended C3 theorem at a concrete WAL. -/
theorem commit_first_writer_wins_witness :
    commitIndex ⟨[⟨0, 1⟩, ⟨0, 2⟩, ⟨1, 5⟩], [], true⟩ true =
      Except.ok ⟨[], [] ++ uniqueBy (fun p => p.url) [⟨0, 1⟩, ⟨0, 2⟩, ⟨1, 5⟩],
        false⟩ :=
  (commit_first_writer_wins_and_clears_wal ⟨[⟨0, 1⟩, ⟨0, 2⟩, ⟨1, 5⟩], [], true⟩).1

/-! ### C9: has_inserts invariant -/

/-- C9: `has_inserts` is `true` whenever the WAL holds uncommitted records:
`new()` initialises it to `true` exactly when the replayed WAL is nonempty
(so pending inserts survive a restart), `insert()` sets it after appending,
and a successful `commit()` leaves an empty WAL with `has_inserts = false`;
on every reachable state a nonempty WAL implies `has_inserts`. -/
theorem hasInserts_invariant :
    (∀ w st, (newIndex w st).hasInserts = true ↔ w ≠ []) ∧
    (∀ s pages, (insertPages s pages).hasInserts = true ∧
      (insertPages s pages).wal = s.wal ++ pages) ∧
    (∀ s s', commitIndex s true = .ok s' →
      s'.wal = [] ∧ s'.hasInserts = false) ∧
    (∀ s, ReachableIndex s → s.wal ≠ [] → s.hasInserts = true) := by
  have hnew : ∀ (w st : List IndexablePage),
      (newIndex w st).hasInserts = true ↔ w ≠ [] := by
    intro w st
    simp [newIndex, List.length_pos]
  refine ⟨hnew, ?_, ?_, ?_⟩
  · intro s pages
    exact ⟨rfl, rfl⟩
  · intro s s' hok
    simp only [commitIndex] at hok
    cases hok
    exact ⟨rfl, rfl⟩
  · intro s hs
    induction hs with
    | opened w st => exact (hnew w st).mpr
    | insert pages _ _ => intro _; rfl
    | commit _ hok _ =>
      simp only [commitIndex] at hok
      cases hok
      intro hne
      exact absurd rfl hne
    | restart _ _ => exact (hnew _ _).mpr

/-- Witness for C9 at a concrete reachable state with a nonempty WAL. -/
theorem hasInserts_invariant_witness :
    (newIndex [⟨0, 0⟩] []).hasInserts = true :=
  hasInserts_invariant.2.2.2 (newIndex [⟨0, 0⟩] [])
    (ReachableIndex.opened [⟨0, 0⟩] []) (by simp [newIndex])

/-! ### C4: compaction by date -/

/-- C4: `compact_segments_by_date` merges only date groups of size at least
two, each consisting of meta segments sharing one naive creation date; for
every successful merge yielding a fresh segment id, the old ids are removed
from Meta and exactly one entry is appended whose creation date is the
maximum — hence the newest — of the merged input creation dates. -/
theorem compactByDate_groups_and_meta (meta g : List LiveSegment) (newId : Nat)
    (hg : g ∈ startCompactSegmentsByDate meta)
    (hfresh : newId ∉ g.map (fun s => s.id)) :
    2 ≤ g.length ∧
    (∀ s ∈ g, s ∈ meta) ∧
    (∀ s1 ∈ g, ∀ s2 ∈ g, dateNaive s1.created = dateNaive s2.created) ∧
    endCompactOne meta g (some newId) =
      (meta.filter (fun s => s.id ∉ g.map (fun s => s.id))) ++
        [⟨newId, newestCreated g⟩] ∧
    (∀ i ∈ g.map (fun s => s.id),
      i ∉ (endCompactOne meta g (some newId)).map (fun s => s.id)) ∧
    newestCreated g ∈ g.map (fun s => s.created) ∧
    (∀ s ∈ g, s.created ≤ newestCreated g) := by
  rw [startCompactSegmentsByDate, List.mem_filter] at hg
  obtain ⟨hmem, hlen⟩ := hg
  have hlen' : 1 < g.length := by simpa using hlen
  rw [segmentsByDate, List.mem_map] at hmem
  obtain ⟨day, _, rfl⟩ := hmem
  refine ⟨hlen', ?_, ?_, rfl, ?_, ?_, ?_⟩
  · intro s hs
    exact (List.mem_filter.mp hs).1
  · intro s1 hs1 s2 hs2
    have h1 := (List.mem_filter.mp hs1).2
    have h2 := (List.mem_filter.mp hs2).2
    simp only [decide_eq_true_eq] at h1 h2
    rw [h1, h2]
  · intro i hi hcontra
    simp only [endCompactOne, updateMetaAfterCompaction, List.map_append,
      List.mem_append, List.mem_map] at hcontra
    rcases hcontra with ⟨t, ht, rfl⟩ | h
    · exact absurd (by simpa using hi) (by simpa using (List.mem_filter.mp ht).2)
    · simp only [List.map_cons, List.map_nil, List.mem_singleton] at h
      obtain ⟨a, rfl, rfl⟩ := h
      exact hfresh hi
  · rw [newestCreated]
    have hne : (List.map (fun s => s.created)
        (List.filter (fun s => decide (dateNaive s.created = day))
          meta)) ≠ [] := by
      intro hc
      rw [List.map_eq_nil_iff] at hc
      rw [hc] at hlen'
      simp at hlen'
    exact foldr_max_mem _ hne
  · intro s hs
    exact le_foldr_max _ _ (List.mem_map_of_mem (fun s => s.created) hs)

/-- Witness for C4 on a concrete two-segment same-day Meta. -/
theorem compactByDate_witness :
    2 ≤ ([⟨1, 10⟩, ⟨2, 20⟩] : List LiveSegment).length ∧
    (∀ s ∈ ([⟨1, 10⟩, ⟨2, 20⟩] : List LiveSegment),
      s ∈ ([⟨1, 10⟩, ⟨2, 20⟩] : List LiveSegment)) ∧
    (∀ s1 ∈ ([⟨1, 10⟩, ⟨2, 20⟩] : List LiveSegment),
      ∀ s2 ∈ ([⟨1, 10⟩, ⟨2, 20⟩] : List LiveSegment),
      dateNaive s1.created = dateNaive s2.created) ∧
    endCompactOne [⟨1, 10⟩, ⟨2, 20⟩] [⟨1, 10⟩, ⟨2, 20⟩] (some 9) =
      (([⟨1, 10⟩, ⟨2, 20⟩] : List LiveSegment).filter
        (fun s => s.id ∉ ([⟨1, 10⟩, ⟨2, 20⟩] : List LiveSegment).map
          (fun s => s.id))) ++ [⟨9, newestCreated [⟨1, 10⟩, ⟨2, 20⟩]⟩] ∧
    (∀ i ∈ ([⟨1, 10⟩, ⟨2, 20⟩] : List LiveSegment).map (fun s => s.id),
      i ∉ (endCompactOne [⟨1, 10⟩, ⟨2, 20⟩] [⟨1, 10⟩, ⟨2, 20⟩]
        (some 9)).map (fun s => s.id)) ∧
    newestCreated [⟨1, 10⟩, ⟨2, 20⟩] ∈
      ([⟨1, 10⟩, ⟨2, 20⟩] : List LiveSegment).map (fun s => s.created) ∧
    (∀ s ∈ ([⟨1, 10⟩, ⟨2, 20⟩] : List LiveSegment),
      s.created ≤ newestCreated [⟨1, 10⟩, ⟨2, 20⟩]) :=
  compactByDate_groups_and_meta [⟨1, 10⟩, ⟨2, 20⟩] [⟨1, 10⟩, ⟨2, 20⟩] 9
    (by decide) (by decide)

/-! ### C5: end_merge returning None -/

/-- C5 counterexample: for Meta `[{id 1}, {id 2}]` and the operation merging
both segments, when `end_merge` returns `None` the input ids are NOT removed
— Meta is untouched and id 1 is still present, contradicting the claim. -/
theorem endCompact_none_keeps_input_ids :
    endCompactOne [⟨1, 0⟩, ⟨2, 0⟩] [⟨1, 0⟩, ⟨2, 0⟩] none = [⟨1, 0⟩, ⟨2, 0⟩] ∧
    1 ∈ (endCompactOne [⟨1, 0⟩, ⟨2, 0⟩] [⟨1, 0⟩, ⟨2, 0⟩] none).map
      (fun s => s.id) := by
  decide

/-- C5 (amended): a compaction operation whose `end_merge` yields no new
segment id leaves Meta entirely unchanged — the input ids remain (until a
later reconciliation) and no new entry is added; a whole pass of such
operations is the identity on Meta. -/
theorem endCompact_none_leaves_meta_unchanged (meta : List LiveSegment)
    (ops : List (List LiveSegment × Option Nat))
    (hops : ∀ op ∈ ops, op.2 = none) :
    endCompactSegmentsByDate meta ops = meta ∧
    (∀ g, endCompactOne meta g none = meta) := by
  constructor
  · induction ops generalizing meta with
    | nil => rfl
    | cons op ops ih =>
      have h1 : op.2 = none := hops op (List.mem_cons_self _ _)
      simp only [endCompactSegmentsByDate, List.foldl_cons, h1, endCompactOne]
      exact ih meta (fun o ho => hops o (List.mem_cons_of_mem _ ho))
  · intro g
    rfl

/-- Witness for the amended C5 theorem on a concrete all-`None` pass. -/
theorem endCompact_none_witness :
    endCompactSegmentsByDate [⟨1, 0⟩, ⟨2, 0⟩] [([⟨1, 0⟩, ⟨2, 0⟩], none)] =
      [⟨1, 0⟩, ⟨2, 0⟩] ∧
    (∀ g, endCompactOne [⟨1, 0⟩, ⟨2, 0⟩] g none = [⟨1, 0⟩, ⟨2, 0⟩]) :=
  endCompact_none_leaves_meta_unchanged [⟨1, 0⟩, ⟨2, 0⟩]
    [([⟨1, 0⟩, ⟨2, 0⟩], none)] (by decide)

/-! ### C6: TTL pruning -/

/-- Membership in the expired-id list collected by `prune_segments`. -/
theorem mem_pruneOld_iff (meta : List LiveSegment) (now ttl : Nat) (i : Nat) :
    i ∈ meta.filterMap
        (fun s => if s.created + ttl < now then some s.id else none) ↔
      ∃ t ∈ meta, t.created + ttl < now ∧ t.id = i := by
  simp only [List.mem_filterMap]
  constructor
  · rintro ⟨a, ha, hfa⟩
    by_cases hexp : a.created + ttl < now
    · rw [if_pos hexp] at hfa
      exact ⟨a, ha, hexp, Option.some.inj hfa⟩
    · rw [if_neg hexp] at hfa
      exact absurd hfa (by simp)
  · rintro ⟨a, ha, hexp, rfl⟩
    exact ⟨a, ha, by rw [if_pos hexp]⟩

/-- C6: after `prune_segments`, every meta segment with
`created + TTL < now` is absent from both the new Meta and the store
segment set; and — under the reconciliation invariant that meta ids are
distinct and every meta segment exists in the store — every meta segment
with `created + TTL >= now` is retained in both. -/
theorem pruneSegments_expired_absent_young_retained
    (meta : List LiveSegment) (storeIds : List Nat) (now ttl : Nat)
    (hnodup : (meta.map (fun s => s.id)).Nodup)
    (hsub : ∀ s ∈ meta, s.id ∈ storeIds) :
    (∀ s ∈ meta, s.created + ttl < now →
      s.id ∉ (pruneSegments meta storeIds now ttl).2 ∧
      s.id ∉ ((pruneSegments meta storeIds now ttl).1.map (fun s => s.id))) ∧
    (∀ s ∈ meta, ¬ s.created + ttl < now →
      s ∈ (pruneSegments meta storeIds now ttl).1 ∧
      s.id ∈ (pruneSegments meta storeIds now ttl).2) := by
  simp only [pruneSegments, syncMetaWithIndex]
  constructor
  · intro s hs hexp
    have hidold : s.id ∈ meta.filterMap
        (fun s => if s.created + ttl < now then some s.id else none) :=
      (mem_pruneOld_iff meta now ttl s.id).mpr ⟨s, hs, hexp, rfl⟩
    have hstore : s.id ∉ storeIds.filter
        (fun i => i ∉ meta.filterMap
          (fun s => if s.created + ttl < now then some s.id else none)) := by
      intro hc
      have h2 := (List.mem_filter.mp hc).2
      simp only [decide_eq_true_eq] at h2
      exact h2 hidold
    refine ⟨hstore, ?_⟩
    intro hc
    rw [List.map_append, List.mem_append] at hc
    rcases hc with hc | hc
    · rw [List.mem_map] at hc
      obtain ⟨t, ht, htid⟩ := hc
      have h2 := (List.mem_filter.mp ht).2
      simp only [decide_eq_true_eq] at h2
      exact hstore (htid ▸ h2)
    · rw [List.map_map, List.mem_map] at hc
      obtain ⟨i, hi, hid⟩ := hc
      have hid' : i = s.id := hid
      have h1 := (List.mem_filter.mp hi).1
      exact hstore (hid' ▸ h1)
  · intro s hs hexp
    have hidnotold : s.id ∉ meta.filterMap
        (fun s => if s.created + ttl < now then some s.id else none) := by
      intro hc
      obtain ⟨t, ht, htexp, htid⟩ := (mem_pruneOld_iff meta now ttl s.id).mp hc
      have heq : t = s := List.inj_on_of_nodup_map hnodup ht hs htid
      rw [heq] at htexp
      exact hexp htexp
    have hstore : s.id ∈ storeIds.filter
        (fun i => i ∉ meta.filterMap
          (fun s => if s.created + ttl < now then some s.id else none)) :=
      List.mem_filter.mpr ⟨hsub s hs, by simpa using hidnotold⟩
    refine ⟨?_, hstore⟩
    exact List.mem_append_left _
      (List.mem_filter.mpr ⟨hs, by simpa using hstore⟩)

/-- Witness for C6: TTL 50 at time 90 prunes the segment created at 0 and
keeps the segment created at 100. -/
theorem pruneSegments_witness :
    (∀ s ∈ ([⟨1, 0⟩, ⟨2, 100⟩] : List LiveSegment), s.created + 50 < 90 →
      s.id ∉ (pruneSegments [⟨1, 0⟩, ⟨2, 100⟩] [1, 2] 90 50).2 ∧
      s.id ∉ ((pruneSegments [⟨1, 0⟩, ⟨2, 100⟩] [1, 2] 90 50).1.map
        (fun s => s.id))) ∧
    (∀ s ∈ ([⟨1, 0⟩, ⟨2, 100⟩] : List LiveSegment), ¬ s.created + 50 < 90 →
      s ∈ (pruneSegments [⟨1, 0⟩, ⟨2, 100⟩] [1, 2] 90 50).1 ∧
      s.id ∈ (pruneSegments [⟨1, 0⟩, ⟨2, 100⟩] [1, 2] 90 50).2) :=
  pruneSegments_expired_absent_young_retained [⟨1, 0⟩, ⟨2, 100⟩] [1, 2] 90 50
    (by decide) (by decide)

/-! ### C8: routable members -/

theorem mem_lookupHosts_entryPush (tbl : List (Nat × List Nat))
    (s' h' s h : Nat) :
    h ∈ lookupHosts (entryPush tbl s' h') s ↔
      (s = s' ∧ h = h') ∨ h ∈ lookupHosts tbl s := by
  induction tbl with
  | nil =>
    by_cases hs : s' = s
    · subst hs
      simp [entryPush, lookupHosts]
    · have hs2 : ¬ s = s' := fun hc => hs hc.symm
      simp [entryPush, lookupHosts, hs, hs2]
  | cons kv rest ih =>
    obtain ⟨k, v⟩ := kv
    by_cases hk' : k = s' <;> by_cases hk : k = s
    · subst hk'
      subst hk
      simp [entryPush, lookupHosts]
      tauto
    · subst hk'
      have hk2 : ¬ s = k := fun hc => hk hc.symm
      simp [entryPush, lookupHosts, hk, hk2]
    · subst hk
      have hk2 : ¬ k = s' := hk'
      simp [entryPush, lookupHosts, hk2]
    · simp only [entryPush, if_neg hk', lookupHosts, if_neg hk]
      exact ih

theorem mem_lookup_foldl_searchStep (ms : List ClusterService)
    (tbl : List (Nat × List Nat)) (sh h : Nat) :
    h ∈ lookupHosts (ms.foldl searchServiceStep tbl) sh ↔
      h ∈ lookupHosts tbl sh ∨
        ClusterService.searcher h sh ∈ ms ∨
        ∃ h0, ClusterService.liveIndex h0 h sh LiveNodeState.ready ∈ ms := by
  induction ms generalizing tbl with
  | nil => simp
  | cons m ms ih =>
    rw [List.foldl_cons, ih]
    cases m with
    | searcher h0 s0 =>
      have hstep : searchServiceStep tbl (.searcher h0 s0) =
          entryPush tbl s0 h0 := rfl
      rw [hstep, mem_lookupHosts_entryPush]
      simp only [List.mem_cons]
      constructor
      · rintro ((⟨rfl, rfl⟩ | hl) | hsr | ⟨x, hx⟩)
        · exact Or.inr (Or.inl (Or.inl rfl))
        · exact Or.inl hl
        · exact Or.inr (Or.inl (Or.inr hsr))
        · exact Or.inr (Or.inr ⟨x, Or.inr hx⟩)
      · rintro (hl | (heq | hsr) | ⟨x, hx | hx⟩)
        · exact Or.inl (Or.inr hl)
        · rw [ClusterService.searcher.injEq] at heq
          exact Or.inl (Or.inl ⟨heq.2, heq.1⟩)
        · exact Or.inr (Or.inl hsr)
        · exact absurd hx (by simp)
        · exact Or.inr (Or.inr ⟨x, hx⟩)
    | liveIndex h0 sh0 s0 st =>
      cases st with
      | ready =>
        have hstep : searchServiceStep tbl (.liveIndex h0 sh0 s0 .ready) =
            entryPush tbl s0 sh0 := by simp [searchServiceStep]
        rw [hstep, mem_lookupHosts_entryPush]
        simp only [List.mem_cons]
        constructor
        · rintro ((⟨rfl, rfl⟩ | hl) | hsr | ⟨x, hx⟩)
          · exact Or.inr (Or.inr ⟨h0, Or.inl rfl⟩)
          · exact Or.inl hl
          · exact Or.inr (Or.inl (Or.inr hsr))
          · exact Or.inr (Or.inr ⟨x, Or.inr hx⟩)
        · rintro (hl | (heq | hsr) | ⟨x, hx | hx⟩)
          · exact Or.inl (Or.inr hl)
          · exact absurd heq (by simp)
          · exact Or.inr (Or.inl hsr)
          · rw [ClusterService.liveIndex.injEq] at hx
            exact Or.inl (Or.inl ⟨hx.2.2.1, hx.2.1⟩)
          · exact Or.inr (Or.inr ⟨x, hx⟩)
      | inSetup =>
        have hstep : searchServiceStep tbl (.liveIndex h0 sh0 s0 .inSetup) =
            tbl := by simp [searchServiceStep]
        rw [hstep]
        simp only [List.mem_cons]
        constructor
        · rintro (hl | hsr | ⟨x, hx⟩)
          · exact Or.inl hl
          · exact Or.inr (Or.inl (Or.inr hsr))
          · exact Or.inr (Or.inr ⟨x, Or.inr hx⟩)
        · rintro (hl | (heq | hsr) | ⟨x, hx | hx⟩)
          · exact Or.inl hl
          · exact absurd heq (by simp)
          · exact Or.inr (Or.inl hsr)
          · exact absurd hx (by simp)
          · exact Or.inr (Or.inr ⟨x, hx⟩)
    | entitySearcher h0 =>
      have hstep : searchServiceStep tbl (.entitySearcher h0) = tbl := rfl
      rw [hstep]
      simp only [List.mem_cons]
      constructor
      · rintro (hl | hsr | ⟨x, hx⟩)
        · exact Or.inl hl
        · exact Or.inr (Or.inl (Or.inr hsr))
        · exact Or.inr (Or.inr ⟨x, Or.inr hx⟩)
      · rintro (hl | (heq | hsr) | ⟨x, hx | hx⟩)
        · exact Or.inl hl
        · exact absurd heq (by simp)
        · exact Or.inr (Or.inl hsr)
        · exact absurd hx (by simp)
        · exact Or.inr (Or.inr ⟨x, hx⟩)
    | dhtNode h0 s0 =>
      have hstep : searchServiceStep tbl (.dhtNode h0 s0) = tbl := rfl
      rw [hstep]
      simp only [List.mem_cons]
      constructor
      · rintro (hl | hsr | ⟨x, hx⟩)
        · exact Or.inl hl
        · exact Or.inr (Or.inl (Or.inr hsr))
        · exact Or.inr (Or.inr ⟨x, Or.inr hx⟩)
      · rintro (hl | (heq | hsr) | ⟨x, hx | hx⟩)
        · exact Or.inl hl
        · exact absurd heq (by simp)
        · exact Or.inr (Or.inl hsr)
        · exact absurd hx (by simp)
        · exact Or.inr (Or.inr ⟨x, hx⟩)

theorem mem_lookup_foldl_liveStep (ms : List ClusterService)
    (tbl : List (Nat × List Nat)) (sh h : Nat) :
    h ∈ lookupHosts (ms.foldl liveIndexServiceStep tbl) sh ↔
      h ∈ lookupHosts tbl sh ∨
        ∃ sh0, ClusterService.liveIndex h sh0 sh LiveNodeState.ready ∈ ms := by
  induction ms generalizing tbl with
  | nil => simp
  | cons m ms ih =>
    rw [List.foldl_cons, ih]
    cases m with
    | searcher h0 s0 =>
      have hstep : liveIndexServiceStep tbl (.searcher h0 s0) = tbl := rfl
      rw [hstep]
      simp only [List.mem_cons]
      constructor
      · rintro (hl | ⟨x, hx⟩)
        · exact Or.inl hl
        · exact Or.inr ⟨x, Or.inr hx⟩
      · rintro (hl | ⟨x, hx | hx⟩)
        · exact Or.inl hl
        · exact absurd hx (by simp)
        · exact Or.inr ⟨x, hx⟩
    | liveIndex h0 sh0 s0 st =>
      cases st with
      | ready =>
        have hstep : liveIndexServiceStep tbl (.liveIndex h0 sh0 s0 .ready) =
            entryPush tbl s0 h0 := by simp [liveIndexServiceStep]
        rw [hstep, mem_lookupHosts_entryPush]
        simp only [List.mem_cons]
        constructor
        · rintro ((⟨rfl, rfl⟩ | hl) | ⟨x, hx⟩)
          · exact Or.inr ⟨sh0, Or.inl rfl⟩
          · exact Or.inl hl
          · exact Or.inr ⟨x, Or.inr hx⟩
        · rintro (hl | ⟨x, hx | hx⟩)
          · exact Or.inl (Or.inr hl)
          · rw [ClusterService.liveIndex.injEq] at hx
            exact Or.inl (Or.inl ⟨hx.2.2.1, hx.1⟩)
          · exact Or.inr ⟨x, hx⟩
      | inSetup =>
        have hstep : liveIndexServiceStep tbl (.liveIndex h0 sh0 s0 .inSetup) =
            tbl := by simp [liveIndexServiceStep]
        rw [hstep]
        simp only [List.mem_cons]
        constructor
        · rintro (hl | ⟨x, hx⟩)
          · exact Or.inl hl
          · exact Or.inr ⟨x, Or.inr hx⟩
        · rintro (hl | ⟨x, hx | hx⟩)
          · exact Or.inl hl
          · exact absurd hx (by simp)
          · exact Or.inr ⟨x, hx⟩
    | entitySearcher h0 =>
      have hstep : liveIndexServiceStep tbl (.entitySearcher h0) = tbl := rfl
      rw [hstep]
      simp only [List.mem_cons]
      constructor
      · rintro (hl | ⟨x, hx⟩)
        · exact Or.inl hl
        · exact Or.inr ⟨x, Or.inr hx⟩
      · rintro (hl | ⟨x, hx | hx⟩)
        · exact Or.inl hl
        · exact absurd hx (by simp)
        · exact Or.inr ⟨x, hx⟩
    | dhtNode h0 s0 =>
      have hstep : liveIndexServiceStep tbl (.dhtNode h0 s0) = tbl := rfl
      rw [hstep]
      simp only [List.mem_cons]
      constructor
      · rintro (hl | ⟨x, hx⟩)
        · exact Or.inl hl
        · exact Or.inr ⟨x, Or.inr hx⟩
      · rintro (hl | ⟨x, hx | hx⟩)
        · exact Or.inl hl
        · exact absurd hx (by simp)
        · exact Or.inr ⟨x, hx⟩

/-- C8: in the rebuilt search-service routing table, a host is routable for
a shard exactly when the membership holds a `Searcher` with that host and
shard, or a `LiveIndex` member on that shard whose `search_host` is that
host AND whose advertised state is `Ready`; the live-index-service table
routes a host exactly when a `Ready` `LiveIndex` member has that `host` and
shard.  In particular non-`Ready` live-index members are never routable. -/
theorem routing_ready_members_only (members : List ClusterService)
    (sh h : Nat) :
    (h ∈ lookupHosts (searchServiceRouting members) sh ↔
      ClusterService.searcher h sh ∈ members ∨
        ∃ h0, ClusterService.liveIndex h0 h sh LiveNodeState.ready ∈ members) ∧
    (h ∈ lookupHosts (liveIndexServiceRouting members) sh ↔
      ∃ sh0, ClusterService.liveIndex h sh0 sh LiveNodeState.ready ∈ members) := by
  constructor
  · rw [searchServiceRouting, mem_lookup_foldl_searchStep]
    simp [lookupHosts]
  · rw [liveIndexServiceRouting, mem_lookup_foldl_liveStep]
    simp [lookupHosts]

/-! ### C1: parent merge with host deduplication -/

/-- C1 counterexample: two rank-sorted segment fruits for the same host
(ranks 5 and 1, in concatenation order).  The code keeps the rank-5
candidate because `unique_by` runs over the concatenated fruits before any
global rank sort, while the claimed rank-order deduplication (lowest rank
wins) would keep the rank-1 candidate. -/
theorem mergeFruits_not_rank_order_dedup :
    mergeFruits ⟨some 1, some 0, true⟩ hostDeduplicate
        [[(5, ⟨⟨0, 0, 0⟩, 7⟩)], [(1, ⟨⟨0, 0, 1⟩, 7⟩)]] =
      [(5, ⟨⟨0, 0, 0⟩, 7⟩)] ∧
    specMergeFruitsRankOrderDedup ⟨some 1, some 0, true⟩
        [[(5, ⟨⟨0, 0, 0⟩, 7⟩)], [(1, ⟨⟨0, 0, 1⟩, 7⟩)]] =
      [(1, ⟨⟨0, 0, 1⟩, 7⟩)] ∧
    mergeFruits ⟨some 1, some 0, true⟩ hostDeduplicate
        [[(5, ⟨⟨0, 0, 0⟩, 7⟩)], [(1, ⟨⟨0, 0, 1⟩, 7⟩)]] ≠
      specMergeFruitsRankOrderDedup ⟨some 1, some 0, true⟩
        [[(5, ⟨⟨0, 0, 0⟩, 7⟩)], [(1, ⟨⟨0, 0, 1⟩, 7⟩)]] := by
  refine ⟨?_, ?_, ?_⟩ <;> decide

/-- C1 (amended): in host-deduplication mode with both `limit` and `offset`
set and offsetting enabled, the parent merge retains, for every host, the
first occurrence in the concatenation order of the segment fruits (NOT in
global rank order), then rank-sorts the deduplicated candidates and only
afterwards applies `offset` and `limit`; hosts in the result are pairwise
distinct.  The `TopN(limit + offset + DEDUPLICATION_BUFFER)` truncation
never affects this result. -/
theorem mergeFruits_dedup_then_offset (l o : Nat)
    (fruits : List (List (Nat × DocAddressWithHost))) :
    mergeFruits ⟨some l, some o, true⟩ hostDeduplicate fruits =
      ((sortOn Prod.fst (hostDeduplicate fruits.flatten)).drop o).take l ∧
    ((mergeFruits ⟨some l, some o, true⟩ hostDeduplicate fruits).map
      (fun d => d.2.host)).Nodup := by
  have hmain : mergeFruits ⟨some l, some o, true⟩ hostDeduplicate fruits =
      ((sortOn Prod.fst (hostDeduplicate fruits.flatten)).drop o).take l := by
    simp only [mergeFruits, computerKind, runComputer, Option.getD_some]
    rw [if_pos trivial, List.drop_take]
    have harith : l + o + DEDUPLICATION_BUFFER - o = l + DEDUPLICATION_BUFFER := by
      omega
    rw [harith, List.take_take]
    rw [Nat.min_eq_left (Nat.le_add_right _ _)]
  refine ⟨hmain, ?_⟩
  rw [hmain]
  have h1 : ((hostDeduplicate fruits.flatten).map (fun d => d.2.host)).Nodup :=
    nodup_map_key_uniqueBy _ _
  have h2 : ((sortOn Prod.fst (hostDeduplicate fruits.flatten)).map
      (fun d => d.2.host)).Nodup :=
    ((sortOn_perm Prod.fst (hostDeduplicate fruits.flatten)).map
      (fun d => d.2.host)).nodup_iff.mpr h1
  exact List.Nodup.sublist
    (List.Sublist.map _ ((List.take_sublist _ _).trans (List.drop_sublist _ _)))
    h2

/-! ### C7: per-shard retrieval and result order -/

theorem filter_not_filter_perm (p : α → Prop) [DecidablePred p] (l : List α) :
    List.Perm (l.filter (fun x => p x) ++ l.filter (fun x => ¬ p x)) l := by
  induction l with
  | nil => simp
  | cons a l ih =>
    by_cases h : p a
    · simp only [List.filter_cons, decide_eq_true_eq, h, decide_True,
        if_true, not_true, decide_False, if_false, List.cons_append]
      exact ih.cons a
    · simp only [List.filter_cons, decide_eq_true_eq, h, decide_False,
        if_false, not_false_iff, decide_True, if_true]
      exact List.perm_middle.trans (ih.cons a)

theorem filter_key_filter_ne (key : α → Nat) (k k' : Nat) (hne : k' ≠ k)
    (l : List α) :
    (l.filter (fun x => ¬ key x = k)).filter (fun x => key x = k') =
      l.filter (fun x => key x = k') := by
  induction l with
  | nil => rfl
  | cons a l ih =>
    by_cases h : key a = k
    · have h2 : ¬ key a = k' := by
        intro hc
        exact hne (by rw [← hc, h])
      rw [List.filter_cons_of_neg (by simpa using h),
        List.filter_cons_of_neg (by simpa using h2), ih]
    · by_cases h3 : key a = k'
      · rw [List.filter_cons_of_pos (by simpa using h),
          List.filter_cons_of_pos (by simpa using h3),
          List.filter_cons_of_pos (by simpa using h3), ih]
      · rw [List.filter_cons_of_pos (by simpa using h),
          List.filter_cons_of_neg (by simpa using h3),
          List.filter_cons_of_neg (by simpa using h3), ih]

theorem flatten_key_filters_perm (key : α → Nat) (keys : List Nat) :
    ∀ (l : List α), keys.Nodup → (∀ x ∈ l, key x ∈ keys) →
    List.Perm ((keys.map (fun k => l.filter (fun x => key x = k))).flatten) l := by
  induction keys with
  | nil =>
    intro l _ hcov
    have hl : l = [] := by
      cases l with
      | nil => rfl
      | cons a t => exact absurd (hcov a (List.mem_cons_self a t)) (List.not_mem_nil _)
    rw [hl]
    simp
  | cons k ks ih =>
    intro l hnd hcov
    have hk : k ∉ ks := (List.nodup_cons.mp hnd).1
    have hnd' : ks.Nodup := (List.nodup_cons.mp hnd).2
    simp only [List.map_cons, List.flatten_cons]
    have hcongr : ks.map (fun k' => l.filter (fun x => key x = k')) =
        ks.map (fun k' =>
          (l.filter (fun x => ¬ key x = k)).filter (fun x => key x = k')) := by
      apply List.map_congr_left
      intro k' hk'
      exact (filter_key_filter_ne key k k'
        (fun hc => hk (hc ▸ hk')) l).symm
    rw [hcongr]
    have hcov' : ∀ x ∈ l.filter (fun x => ¬ key x = k), key x ∈ ks := by
      intro x hx
      have hxl := (List.mem_filter.mp hx).1
      have hxk := (List.mem_filter.mp hx).2
      simp only [decide_eq_true_eq] at hxk
      rcases List.mem_cons.mp (hcov x hxl) with h | h
      · exact absurd h hxk
      · exact h
    have hperm := ih (l.filter (fun x => ¬ key x = k)) hnd' hcov'
    exact (List.Perm.append_left _ hperm).trans
      (filter_not_filter_perm (fun x => key x = k) l)

theorem le_fst_of_mem_enumFrom' (l : List α) :
    ∀ (m : Nat) (x : Nat × α), x ∈ List.enumFrom m l → m ≤ x.1 := by
  induction l with
  | nil =>
    intro m x hx
    simp at hx
  | cons a l ih =>
    intro m x hx
    rw [List.enumFrom_cons] at hx
    rcases List.mem_cons.mp hx with rfl | hx
    · exact Nat.le_refl _
    · exact Nat.le_of_succ_le (ih (m + 1) x hx)

theorem pairwise_fst_lt_enumFrom (l : List α) :
    ∀ (n : Nat), (List.enumFrom n l).Pairwise (fun a b => a.1 < b.1) := by
  induction l with
  | nil =>
    intro n
    simp
  | cons a l ih =>
    intro n
    rw [List.enumFrom_cons]
    refine List.pairwise_cons.mpr ⟨?_, ih (n + 1)⟩
    intro x hx
    exact Nat.lt_of_lt_of_le (Nat.lt_succ_self n) (le_fst_of_mem_enumFrom' l (n + 1) x hx)

theorem pairwise_lt_of_sortedOn_nodup (key : α → Nat) (l : List α)
    (hs : SortedOn key l) (hn : (l.map key).Nodup) :
    l.Pairwise (fun a b => key a < key b) := by
  induction l with
  | nil => simp
  | cons a l ih =>
    rcases List.pairwise_cons.mp hs with ⟨ha, hs'⟩
    simp only [List.map_cons, List.nodup_cons] at hn
    refine List.pairwise_cons.mpr ⟨?_, ih hs' hn.2⟩
    intro b hb
    refine Nat.lt_of_le_of_ne (ha b hb) ?_
    intro hc
    exact hn.1 (hc ▸ List.mem_map_of_mem key hb)

theorem eq_of_perm_of_pairwise_fst_lt {b : Type _} (l₁ l₂ : List (Nat × b))
    (hp : List.Perm l₁ l₂)
    (h1 : l₁.Pairwise (fun x y => x.1 < y.1))
    (h2 : l₂.Pairwise (fun x y => x.1 < y.1)) : l₁ = l₂ := by
  haveI : IsAntisymm (Nat × b) (fun x y => x.1 < y.1) :=
    ⟨fun x y hxy hyx => absurd (Nat.lt_trans hxy hyx) (Nat.lt_irrefl _)⟩
  exact List.eq_of_perm_of_sorted hp h1 h2

/-- C7: `retrieve_webpages` sends every pointer only to its originating
shard — each per-shard request contains exactly the enumerated pointers of
that shard — and the returned pages are exactly the per-pointer retrievals
stitched back in the caller's input order. -/
theorem retrieveWebpages_shard_local_and_ordered {w : Type}
    (retr : Nat → ScoredPointer → w) (ps : List ScoredPointer) :
    (∀ g ∈ groupPointersByShard ps, ∀ ip ∈ g.2, ip.2.shard = g.1) ∧
    retrieveWebpages retr ps = ps.map (fun p => retr p.shard p) := by
  have hgroup : ∀ g ∈ groupPointersByShard ps, ∀ ip ∈ g.2, ip.2.shard = g.1 := by
    intro g hg ip hip
    rw [groupPointersByShard, List.mem_map] at hg
    obtain ⟨sh, _, rfl⟩ := hg
    have h2 := (List.mem_filter.mp hip).2
    simpa using h2
  refine ⟨hgroup, ?_⟩
  have hmaps : (groupPointersByShard ps).map
        (fun g => retrieveFromShard retr g.1 g.2) =
      (groupPointersByShard ps).map
        (fun g => g.2.map (fun ip => (ip.1, retr ip.2.shard ip.2))) := by
    apply List.map_congr_left
    intro g hg
    simp only [retrieveFromShard]
    apply List.map_congr_left
    intro ip hip
    rw [hgroup g hg ip hip]
  have hgs : (groupPointersByShard ps).map (fun g => g.2) =
      ((ps.map (fun p => p.shard)).dedup).map
        (fun sh => ps.enum.filter (fun ip => ip.2.shard = sh)) := by
    simp only [groupPointersByShard, List.map_map]
    rfl
  have hpart : (((groupPointersByShard ps).map (fun g => g.2)).flatten).Perm
      ps.enum := by
    rw [hgs]
    refine flatten_key_filters_perm
      (fun ip : Nat × ScoredPointer => ip.2.shard)
      ((ps.map (fun p => p.shard)).dedup) ps.enum (List.nodup_dedup _) ?_
    intro x hx
    rw [List.mem_dedup]
    exact List.mem_map_of_mem (fun p => p.shard)
      (List.snd_mem_of_mem_enumFrom hx)
  have hperm : (((groupPointersByShard ps).map
        (fun g => retrieveFromShard retr g.1 g.2)).flatten).Perm
      (ps.enum.map (fun ip => (ip.1, retr ip.2.shard ip.2))) := by
    rw [hmaps]
    have hff : ((groupPointersByShard ps).map
          (fun g => g.2.map (fun ip => (ip.1, retr ip.2.shard ip.2)))).flatten =
        (((groupPointersByShard ps).map (fun g => g.2)).flatten).map
          (fun ip => (ip.1, retr ip.2.shard ip.2)) := by
      rw [List.map_flatten, List.map_map]
      rfl
    rw [hff]
    exact hpart.map _
  have hsortPerm : (sortOn Prod.fst (((groupPointersByShard ps).map
        (fun g => retrieveFromShard retr g.1 g.2)).flatten)).Perm
      (ps.enum.map (fun ip => (ip.1, retr ip.2.shard ip.2))) :=
    (sortOn_perm Prod.fst _).trans hperm
  have htargetKeys : (ps.enum.map
        (fun ip => (ip.1, retr ip.2.shard ip.2))).map Prod.fst =
      List.range ps.length := by
    rw [List.map_map]
    rw [show (Prod.fst ∘ fun ip : Nat × ScoredPointer =>
        (ip.1, retr ip.2.shard ip.2)) = Prod.fst from rfl]
    exact List.enum_map_fst ps
  have hsortNodup : ((sortOn Prod.fst (((groupPointersByShard ps).map
        (fun g => retrieveFromShard retr g.1 g.2)).flatten)).map
        Prod.fst).Nodup := by
    apply (hsortPerm.map Prod.fst).nodup_iff.mpr
    rw [htargetKeys]
    exact List.nodup_range _
  have hsortStrict : (sortOn Prod.fst (((groupPointersByShard ps).map
        (fun g => retrieveFromShard retr g.1 g.2)).flatten)).Pairwise
      (fun x y => x.1 < y.1) :=
    pairwise_lt_of_sortedOn_nodup Prod.fst _ (sortedOn_sortOn Prod.fst _)
      hsortNodup
  have htargetStrict : (ps.enum.map
        (fun ip => (ip.1, retr ip.2.shard ip.2))).Pairwise
      (fun x y => x.1 < y.1) := by
    rw [List.pairwise_map]
    exact pairwise_fst_lt_enumFrom ps 0
  have hsorted_eq : sortOn Prod.fst (((groupPointersByShard ps).map
        (fun g => retrieveFromShard retr g.1 g.2)).flatten) =
      ps.enum.map (fun ip => (ip.1, retr ip.2.shard ip.2)) :=
    eq_of_perm_of_pairwise_fst_lt _ _ hsortPerm hsortStrict htargetStrict
  show (sortOn Prod.fst (((groupPointersByShard ps).map
      (fun g => retrieveFromShard retr g.1 g.2)).flatten)).map Prod.snd =
    ps.map (fun p => retr p.shard p)
  rw [hsorted_eq, List.map_map]
  rw [show (Prod.snd ∘ fun ip : Nat × ScoredPointer =>
      (ip.1, retr ip.2.shard ip.2)) =
    (fun p : ScoredPointer => retr p.shard p) ∘ Prod.snd from rfl]
  rw [← List.map_map, List.enum_map_snd]

end Stract
